import Mathlib

/-!
Verification of the requestipy command bot against its design document.

The definitions below are a shallow embedding of the Python sources:
`src/command_manager.py` (command registry), `src/executor.py` (dispatcher),
`src/log_reader.py` (log tailer and line parser) and `src/audio_player.py`
(playback worker).  Python dictionaries are modelled as association lists
whose get/insert/delete operations have exact dict semantics, floating-point
clock values as rationals, and Python object identity of `Command` instances
as structural equality of a `Command` record carrying an abstract handler id.
-/

namespace Requestipy

/-! ## Python dict model (string-keyed) -/

/-- Python `str.lower()` restricted to ASCII case mapping (the repository
only ever lowercases ASCII command names). -/
def lowerString (s : String) : String := ⟨s.data.map Char.toLower⟩


/-- `d.get(k)`: first binding wins (a dict has at most one binding per key). -/
def dictGet {α : Type} (d : List (String × α)) (k : String) : Option α :=
  match d with
  | [] => none
  | (k', v) :: rest => if k' = k then some v else dictGet rest k

/-- `d[k] = v`: replace the existing binding in place, else append. -/
def dictInsert {α : Type} (d : List (String × α)) (k : String) (v : α) :
    List (String × α) :=
  match d with
  | [] => [(k, v)]
  | (k', v') :: rest =>
    if k' = k then (k, v) :: rest else (k', v') :: dictInsert rest k v

/-- `del d[k]`: remove the binding of `k` (a dict holds one binding per key). -/
def dictDel {α : Type} (d : List (String × α)) (k : String) :
    List (String × α) :=
  match d with
  | [] => []
  | (k', v') :: rest =>
    if k' = k then dictDel rest k else (k', v') :: dictDel rest k

theorem dictGet_insert {α : Type} (d : List (String × α)) (k q : String) (v : α) :
    dictGet (dictInsert d k v) q = if k = q then some v else dictGet d q := by
  induction d with
  | nil =>
    by_cases h : k = q <;> simp [dictInsert, dictGet, h]
  | cons kv rest ih =>
    obtain ⟨k', v'⟩ := kv
    by_cases hk : k' = k
    · subst hk
      by_cases hq : k' = q <;> simp [dictInsert, dictGet, hq]
    · by_cases hq : k' = q
      · subst hq
        have : ¬ k = k' := fun h => hk h.symm
        simp [dictInsert, hk, dictGet, this]
      · simp [dictInsert, hk, dictGet, hq, ih]

theorem dictGet_del {α : Type} (d : List (String × α)) (k q : String) :
    dictGet (dictDel d k) q = if q = k then none else dictGet d q := by
  induction d with
  | nil => by_cases h : q = k <;> simp [dictDel, dictGet, h]
  | cons kv rest ih =>
    obtain ⟨k', v'⟩ := kv
    by_cases hk : k' = k
    · subst hk
      by_cases hq : q = k'
      · subst hq; simp [dictDel, dictGet, ih]
      · have hq' : ¬ k' = q := fun h => hq h.symm
        simp [dictDel, dictGet, ih, hq, hq']
    · by_cases hq : q = k'
      · subst hq
        have hqk : ¬ q = k := hk
        simp [dictDel, hk, dictGet, hqk]
      · have hq' : ¬ k' = q := fun h => hq h.symm
        simp [dictDel, hk, dictGet, hq', hq, ih]

/-! ## CommandManager (`src/command_manager.py`) -/

/-- A registered command (`Command.__init__`); `func` is an abstract handler
reference standing in for the Python callable, so that structural equality of
this record models Python object identity of a `Command` instance. -/
structure Command where
  name : String
  func : Nat
  helpText : String
  aliases : List String
  adminOnly : Bool
  source : String
  enabled : Bool
deriving DecidableEq

/-- `Command.__init__`: the name and every alias are stored lowercased, the
command starts out enabled. -/
def commandInit (name : String) (func : Nat) (helpText : String)
    (aliases : List String) (adminOnly : Bool) (source : String) : Command :=
  ⟨(lowerString name), func, helpText, aliases.map lowerString, adminOnly, source, true⟩

/-- `CommandManager._commands`: dict mapping each name or alias to a command. -/
abbrev Registry := List (String × Command)

/-- `CommandManager.register_command`: fail on any name or alias already
present, else store the freshly built command under its lowercased name and
every lowercased alias. -/
def register_command (d : Registry) (name : String) (func : Nat)
    (helpText : String) (aliases : List String) (adminOnly : Bool)
    (source : String) : Bool × Registry :=
  if (dictGet d (lowerString name)).isSome then (false, d)
  else if aliases.any (fun a => (dictGet d (lowerString a)).isSome) then (false, d)
  else
    (true,
      (commandInit (lowerString name) func helpText aliases adminOnly source).aliases.foldl
        (fun acc a =>
          dictInsert acc a (commandInit (lowerString name) func helpText aliases adminOnly source))
        (dictInsert d (lowerString name)
          (commandInit (lowerString name) func helpText aliases adminOnly source)))

/-- `CommandManager.unregister_command`: succeed only on the canonical name,
then delete the canonical binding and every alias binding still mapped to
this command. -/
def unregister_command (d : Registry) (name : String) : Bool × Registry :=
  match dictGet d (lowerString name) with
  | none => (false, d)
  | some cmd =>
    if cmd.name ≠ (lowerString name) then (false, d)
    else
      (true, cmd.aliases.foldl
        (fun acc al =>
          match dictGet acc al with
          | some c => if c = cmd then dictDel acc al else acc
          | none => acc)
        (dictDel d (lowerString name)))

/-- `CommandManager.get_command`: case-insensitive lookup. -/
def getCommand (d : Registry) (name : String) : Option Command :=
  dictGet d (lowerString name)

theorem dictGet_foldl_insert (cmd : Command) (as : List String) :
    ∀ (d : Registry) (q : String),
      dictGet (as.foldl (fun acc a => dictInsert acc a cmd) d) q =
        if q ∈ as then some cmd else dictGet d q := by
  induction as with
  | nil => intro d q; simp
  | cons a rest ih =>
    intro d q
    by_cases hq : q ∈ rest
    · simp [List.foldl_cons, ih, hq]
    · by_cases ha : q = a
      · subst ha
        simp [List.foldl_cons, ih, hq, dictGet_insert]
      · have : ¬ a = q := fun h => ha h.symm
        simp [List.foldl_cons, ih, hq, dictGet_insert, this, ha]

/-- C1 registration success: the fresh command is found under the canonical
name and under every alias. -/
theorem register_success (d : Registry) (name : String) (func : Nat)
    (helpText : String) (aliases : List String) (adminOnly : Bool) (source : String)
    (hname : dictGet d (lowerString name) = none)
    (halias : ∀ a ∈ aliases, dictGet d (lowerString a) = none) :
    (register_command d name func helpText aliases adminOnly source).1 = true ∧
    getCommand (register_command d name func helpText aliases adminOnly source).2 name =
      some (commandInit (lowerString name) func helpText aliases adminOnly source) ∧
    ∀ a ∈ aliases,
      getCommand (register_command d name func helpText aliases adminOnly source).2 a =
        some (commandInit (lowerString name) func helpText aliases adminOnly source) := by
  have hany : aliases.any (fun a => (dictGet d (lowerString a)).isSome) = false := by
    rw [List.any_eq_false]
    intro a ha
    simp [halias a ha]
  have hred : register_command d name func helpText aliases adminOnly source =
      (true,
        (commandInit (lowerString name) func helpText aliases adminOnly source).aliases.foldl
          (fun acc a =>
            dictInsert acc a (commandInit (lowerString name) func helpText aliases adminOnly source))
          (dictInsert d (lowerString name)
            (commandInit (lowerString name) func helpText aliases adminOnly source))) := by
    unfold register_command
    rw [hname, hany]
    rfl
  rw [hred]
  refine ⟨rfl, ?_, ?_⟩
  · show dictGet _ _ = _
    rw [show (commandInit (lowerString name) func helpText aliases adminOnly source).aliases =
        aliases.map lowerString from rfl]
    rw [dictGet_foldl_insert, dictGet_insert]
    split <;> simp
  · intro a ha
    show dictGet _ _ = _
    rw [show (commandInit (lowerString name) func helpText aliases adminOnly source).aliases =
        aliases.map lowerString from rfl]
    rw [dictGet_foldl_insert]
    have : (lowerString a) ∈ aliases.map lowerString := List.mem_map_of_mem _ ha
    simp [this]

/-- C1 registration failure: any collision leaves the registry untouched. -/
theorem register_failure (d : Registry) (name : String) (func : Nat)
    (helpText : String) (aliases : List String) (adminOnly : Bool) (source : String)
    (h : (dictGet d (lowerString name)).isSome ∨
      ∃ a ∈ aliases, (dictGet d (lowerString a)).isSome) :
    register_command d name func helpText aliases adminOnly source = (false, d) := by
  unfold register_command
  rcases h with h | ⟨a, ha, hsome⟩
  · simp [h]
  · by_cases hname : (dictGet d (lowerString name)).isSome
    · simp [hname]
    · have hany : aliases.any (fun a => (dictGet d (lowerString a)).isSome) = true :=
        List.any_eq_true.mpr ⟨a, ha, hsome⟩
      simp [hname, hany]

/-- C1: with no case-insensitive collision, `register_command` succeeds and the
canonical name and every alias resolve to the same `Command`; with any
collision it returns failure and the registry mapping is exactly unchanged. -/
theorem register_command_atomic :
    (∀ (d : Registry) (name : String) (func : Nat) (helpText : String)
        (aliases : List String) (adminOnly : Bool) (source : String),
      dictGet d (lowerString name) = none →
      (∀ a ∈ aliases, dictGet d (lowerString a) = none) →
      (register_command d name func helpText aliases adminOnly source).1 = true ∧
      getCommand (register_command d name func helpText aliases adminOnly source).2 name =
        some (commandInit (lowerString name) func helpText aliases adminOnly source) ∧
      ∀ a ∈ aliases,
        getCommand (register_command d name func helpText aliases adminOnly source).2 a =
          some (commandInit (lowerString name) func helpText aliases adminOnly source)) ∧
    (∀ (d : Registry) (name : String) (func : Nat) (helpText : String)
        (aliases : List String) (adminOnly : Bool) (source : String),
      ((dictGet d (lowerString name)).isSome ∨ ∃ a ∈ aliases, (dictGet d (lowerString a)).isSome) →
      register_command d name func helpText aliases adminOnly source = (false, d)) :=
  ⟨fun d name func helpText aliases adminOnly source h1 h2 =>
      register_success d name func helpText aliases adminOnly source h1 h2,
    fun d name func helpText aliases adminOnly source h =>
      register_failure d name func helpText aliases adminOnly source h⟩

/-- Witness for C1 at a concrete registry. -/
theorem register_command_atomic_check :
    ((register_command [] "Play" 0 "play a song" ["P", "pl"] false "core").1 = true ∧
      getCommand (register_command [] "Play" 0 "play a song" ["P", "pl"] false "core").2 "Play" =
        some (commandInit "play" 0 "play a song" ["P", "pl"] false "core") ∧
      ∀ a ∈ ["P", "pl"],
        getCommand (register_command [] "Play" 0 "play a song" ["P", "pl"] false "core").2 a =
          some (commandInit "play" 0 "play a song" ["P", "pl"] false "core")) ∧
    register_command
        [("play", commandInit "play" 0 "play a song" ["P", "pl"] false "core")]
        "Play" 1 "" [] false "core" =
      (false, [("play", commandInit "play" 0 "play a song" ["P", "pl"] false "core")]) :=
  ⟨register_command_atomic.1 [] "Play" 0 "play a song" ["P", "pl"] false "core"
      (by decide) (by decide),
    register_command_atomic.2
      [("play", commandInit "play" 0 "play a song" ["P", "pl"] false "core")]
      "Play" 1 "" [] false "core" (Or.inl (by decide))⟩

theorem dictGet_foldl_condDel (cmd : Command) (as : List String) :
    ∀ (d : Registry),
      (∀ a ∈ as, dictGet d a = some cmd ∨ dictGet d a = none) →
      (∀ a ∈ as,
        dictGet (as.foldl
          (fun acc al =>
            match dictGet acc al with
            | some c => if c = cmd then dictDel acc al else acc
            | none => acc) d) a = none) ∧
      (∀ q, q ∉ as →
        dictGet (as.foldl
          (fun acc al =>
            match dictGet acc al with
            | some c => if c = cmd then dictDel acc al else acc
            | none => acc) d) q = dictGet d q) := by
  induction as with
  | nil => intro d _; exact ⟨fun a ha => absurd ha (List.not_mem_nil a), fun q _ => rfl⟩
  | cons a rest ih =>
    intro d hpre
    set step : Registry → String → Registry :=
      fun acc al =>
        match dictGet acc al with
        | some c => if c = cmd then dictDel acc al else acc
        | none => acc with hstep
    have hda : dictGet (step d a) a = none := by
      rcases hpre a (List.mem_cons_self a rest) with h | h <;>
        simp [hstep, h, dictGet_del]
    have hdq : ∀ q, q ≠ a → dictGet (step d a) q = dictGet d q := by
      intro q hq
      rcases hpre a (List.mem_cons_self a rest) with h | h
      · by_cases hc : cmd = cmd <;> simp [hstep, h, dictGet_del, hq]
      · simp [hstep, h]
    have hpre' : ∀ b ∈ rest, dictGet (step d a) b = some cmd ∨ dictGet (step d a) b = none := by
      intro b hb
      by_cases hba : b = a
      · subst hba; exact Or.inr hda
      · rw [hdq b hba]; exact hpre b (List.mem_cons_of_mem a hb)
    obtain ⟨ih1, ih2⟩ := ih (step d a) hpre'
    constructor
    · intro x hx
      rcases List.mem_cons.mp hx with hxa | hxr
      · subst hxa
        by_cases hmem : x ∈ rest
        · exact ih1 x hmem
        · rw [List.foldl_cons, ih2 x hmem]; exact hda
      · exact ih1 x hxr
    · intro q hq
      have hq1 : q ∉ rest := fun h => hq (List.mem_cons_of_mem a h)
      have hq2 : q ≠ a := fun h => hq (h ▸ List.mem_cons_self a rest)
      rw [List.foldl_cons, ih2 q hq1, hdq q hq2]

/-- C6: unregistering the canonical name succeeds, removes the canonical
binding and every alias binding, and leaves all other keys alone;
unregistering an alias key fails and changes nothing. -/
theorem unregister_canonical_removes_all :
    (∀ (d : Registry) (cname : String) (cmd : Command),
      (lowerString cname) = cname →
      dictGet d cname = some cmd →
      cmd.name = cname →
      (∀ a ∈ cmd.aliases, dictGet d a = some cmd) →
      (unregister_command d cname).1 = true ∧
      dictGet (unregister_command d cname).2 cname = none ∧
      (∀ a ∈ cmd.aliases, dictGet (unregister_command d cname).2 a = none) ∧
      (∀ q, q ≠ cname → q ∉ cmd.aliases →
        dictGet (unregister_command d cname).2 q = dictGet d q)) ∧
    (∀ (d : Registry) (key : String) (cmd : Command),
      (lowerString key) = key →
      dictGet d key = some cmd →
      cmd.name ≠ key →
      unregister_command d key = (false, d)) := by
  constructor
  · intro d cname cmd hlow hget hname haliases
    have hred : unregister_command d cname =
        (true, cmd.aliases.foldl
          (fun acc al =>
            match dictGet acc al with
            | some c => if c = cmd then dictDel acc al else acc
            | none => acc)
          (dictDel d cname)) := by
      unfold unregister_command
      rw [hlow, hget]
      simp [hname]
    have hpre : ∀ a ∈ cmd.aliases,
        dictGet (dictDel d cname) a = some cmd ∨ dictGet (dictDel d cname) a = none := by
      intro a ha
      rw [dictGet_del]
      by_cases hac : a = cname
      · simp [hac]
      · simp [hac, haliases a ha]
    obtain ⟨h1, h2⟩ := dictGet_foldl_condDel cmd cmd.aliases (dictDel d cname) hpre
    refine ⟨by rw [hred], ?_, ?_, ?_⟩
    · rw [hred]
      by_cases hmem : cname ∈ cmd.aliases
      · exact h1 cname hmem
      · rw [show ((true, cmd.aliases.foldl _ (dictDel d cname)) :
            Bool × Registry).2 = cmd.aliases.foldl _ (dictDel d cname) from rfl]
        rw [h2 cname hmem, dictGet_del]
        simp
    · intro a ha
      rw [hred]
      exact h1 a ha
    · intro q hq hqa
      rw [hred]
      rw [show ((true, cmd.aliases.foldl _ (dictDel d cname)) :
          Bool × Registry).2 = cmd.aliases.foldl _ (dictDel d cname) from rfl]
      rw [h2 q hqa, dictGet_del]
      simp [hq]
  · intro d key cmd hlow hget hne
    unfold unregister_command
    rw [hlow, hget]
    simp [hne]

/-- Witness for C6 at a concrete registry. -/
theorem unregister_canonical_removes_all_check :
    ((unregister_command
        [("play", (⟨"play", 0, "", ["p"], false, "core", true⟩ : Command)),
          ("p", (⟨"play", 0, "", ["p"], false, "core", true⟩ : Command))] "play").1 = true ∧
      dictGet (unregister_command
        [("play", (⟨"play", 0, "", ["p"], false, "core", true⟩ : Command)),
          ("p", (⟨"play", 0, "", ["p"], false, "core", true⟩ : Command))] "play").2 "play" = none ∧
      (∀ a ∈ (⟨"play", 0, "", ["p"], false, "core", true⟩ : Command).aliases,
        dictGet (unregister_command
          [("play", (⟨"play", 0, "", ["p"], false, "core", true⟩ : Command)),
            ("p", (⟨"play", 0, "", ["p"], false, "core", true⟩ : Command))] "play").2 a = none) ∧
      (∀ q, q ≠ "play" → q ∉ (⟨"play", 0, "", ["p"], false, "core", true⟩ : Command).aliases →
        dictGet (unregister_command
          [("play", (⟨"play", 0, "", ["p"], false, "core", true⟩ : Command)),
            ("p", (⟨"play", 0, "", ["p"], false, "core", true⟩ : Command))] "play").2 q =
          dictGet
            [("play", (⟨"play", 0, "", ["p"], false, "core", true⟩ : Command)),
              ("p", (⟨"play", 0, "", ["p"], false, "core", true⟩ : Command))] q)) ∧
    unregister_command
        [("play", (⟨"play", 0, "", ["p"], false, "core", true⟩ : Command)),
          ("p", (⟨"play", 0, "", ["p"], false, "core", true⟩ : Command))] "p" =
      (false,
        [("play", (⟨"play", 0, "", ["p"], false, "core", true⟩ : Command)),
          ("p", (⟨"play", 0, "", ["p"], false, "core", true⟩ : Command))]) :=
  ⟨unregister_canonical_removes_all.1
      [("play", (⟨"play", 0, "", ["p"], false, "core", true⟩ : Command)),
        ("p", (⟨"play", 0, "", ["p"], false, "core", true⟩ : Command))]
      "play" ⟨"play", 0, "", ["p"], false, "core", true⟩
      (by decide) (by decide) (by decide) (by decide),
    unregister_canonical_removes_all.2
      [("play", (⟨"play", 0, "", ["p"], false, "core", true⟩ : Command)),
        ("p", (⟨"play", 0, "", ["p"], false, "core", true⟩ : Command))]
      "p" ⟨"play", 0, "", ["p"], false, "core", true⟩
      (by decide) (by decide) (by decide)⟩

/-! ## Dispatcher (`src/executor.py`) -/

/-- Python `str.strip()` on the character-list level (ASCII whitespace). -/
def trimChars (l : List Char) : List Char :=
  ((l.dropWhile Char.isWhitespace).reverse.dropWhile Char.isWhitespace).reverse

/-- Python `str.strip()` as used on user and admin names. -/
def trimString (s : String) : String := ⟨trimChars s.data⟩

/-- `command.lstrip('!')`: drop every leading `!`. -/
def lstripBang (s : String) : String := ⟨s.data.dropWhile (· == '!')⟩

theorem dropWhile_self_idem {α : Type} (p : α → Bool) (l : List α) :
    (l.dropWhile p).dropWhile p = l.dropWhile p := by
  induction l with
  | nil => rfl
  | cons c rest ih =>
    by_cases h : p c <;> simp [List.dropWhile_cons, h, ih]

theorem lstripBang_idem (s : String) : lstripBang (lstripBang s) = lstripBang s :=
  congrArg String.mk (dropWhile_self_idem _ s.data)

/-- What `Executor.handle_command_event` does with one event. -/
inductive Outcome where
  | duplicate
  | rateLimited
  | notFound
  | adminDenied
  | executed
deriving DecidableEq

/-- The dispatcher's mutable state: `_last_event_time`, `_last_event_details`
and `_user_last_command_time`. -/
structure ExecState where
  lastEventTime : ℚ
  lastEventDetails : Option (Option String × String × List String)
  userLast : List (String × ℚ)
deriving DecidableEq

/-- `admin_user and user_name and user_name.strip() == admin_user.strip()`
(Python truthiness: a missing or empty string is falsy). -/
def isAdminUser (adminUser userName : Option String) : Bool :=
  match adminUser, userName with
  | some a, some u => (a != "") && (u != "") && (trimString u == trimString a)
  | _, _ => false

/-- Registry lookup, admin-only authorization and handler start
(`executor.py` lines 91-114). -/
def dispatchLookup (reg : Registry) (commandName : String) (isAdmin : Bool)
    (st : ExecState) : Outcome × ExecState :=
  match getCommand reg commandName with
  | none => (.notFound, st)
  | some cmd =>
    if cmd.adminOnly && !isAdmin then (.adminDenied, st) else (.executed, st)

/-- Rate limiting for non-admins (`executor.py` lines 66-85) followed by the
lookup phase.  `if last_time:` is Python truthiness: a recorded time of 0.0
is falsy and skips the cool-down check. -/
def rateAndDispatch (adminUser : Option String) (reg : Registry) (st1 : ExecState)
    (userName : Option String) (commandName : String) (currentTime : ℚ) :
    Outcome × ExecState :=
  if isAdminUser adminUser userName then
    dispatchLookup reg commandName true st1
  else
    match userName with
    | some u =>
      if u = "" then dispatchLookup reg commandName false st1
      else
        match dictGet st1.userLast u with
        | some lastTime =>
          if lastTime ≠ 0 ∧ currentTime - lastTime < 30 then (.rateLimited, st1)
          else
            dispatchLookup reg commandName false
              { st1 with userLast := dictInsert st1.userLast u currentTime }
        | none =>
          dispatchLookup reg commandName false
            { st1 with userLast := dictInsert st1.userLast u currentTime }
    | none => dispatchLookup reg commandName false st1

/-- `Executor.handle_command_event`: duplicate suppression (threshold 0.5 s)
followed by rate limiting (30 s) and dispatch; every event that passes the
duplicate check overwrites `_last_event_time`/`_last_event_details`. -/
def handleCommandEvent (adminUser : Option String) (reg : Registry) (st : ExecState)
    (userName : Option String) (command : String) (args : List String)
    (currentTime : ℚ) : Outcome × ExecState :=
  if st.lastEventDetails = some (userName, lstripBang command, args) ∧
      currentTime - st.lastEventTime < 1/2 then
    (.duplicate, st)
  else
    rateAndDispatch adminUser reg
      { st with lastEventTime := currentTime,
                lastEventDetails := some (userName, lstripBang command, args) }
      userName (lstripBang command) currentTime

theorem dispatchLookup_snd (reg : Registry) (c : String) (b : Bool) (st : ExecState) :
    (dispatchLookup reg c b st).2 = st := by
  unfold dispatchLookup
  cases h : getCommand reg c with
  | none => rfl
  | some cmd => by_cases hb : (cmd.adminOnly && !b) = true <;> simp [hb]

theorem dispatchLookup_fst (reg : Registry) (c : String) (b : Bool) (st : ExecState) :
    (dispatchLookup reg c b st).1 ≠ .duplicate ∧
    (dispatchLookup reg c b st).1 ≠ .rateLimited := by
  unfold dispatchLookup
  cases h : getCommand reg c with
  | none => simp
  | some cmd => by_cases hb : (cmd.adminOnly && !b) = true <;> simp [hb]

theorem rateAndDispatch_fst_ne_dup (adminUser : Option String) (reg : Registry)
    (st1 : ExecState) (userName : Option String) (c : String) (t : ℚ) :
    (rateAndDispatch adminUser reg st1 userName c t).1 ≠ .duplicate := by
  unfold rateAndDispatch
  split
  · exact (dispatchLookup_fst ..).1
  · cases userName with
    | none => exact (dispatchLookup_fst ..).1
    | some u =>
      by_cases hu : u = ""
      · simp only [hu, if_pos rfl]
        exact (dispatchLookup_fst ..).1
      · simp only [if_neg hu]
        cases dictGet st1.userLast u with
        | none => exact (dispatchLookup_fst ..).1
        | some lastTime =>
          split
          · split
            · simp
            · exact (dispatchLookup_fst ..).1
          · exact (dispatchLookup_fst ..).1

theorem rateAndDispatch_snd_frame (adminUser : Option String) (reg : Registry)
    (st1 : ExecState) (userName : Option String) (c : String) (t : ℚ) :
    (rateAndDispatch adminUser reg st1 userName c t).2.lastEventDetails =
        st1.lastEventDetails ∧
    (rateAndDispatch adminUser reg st1 userName c t).2.lastEventTime =
        st1.lastEventTime := by
  unfold rateAndDispatch
  split
  · simp [dispatchLookup_snd]
  · cases userName with
    | none => simp [dispatchLookup_snd]
    | some u =>
      by_cases hu : u = ""
      · simp [hu, dispatchLookup_snd]
      · simp only [if_neg hu]
        cases dictGet st1.userLast u with
        | none => simp [dispatchLookup_snd]
        | some lastTime =>
          split
          · split
            · simp
            · simp [dispatchLookup_snd]
          · simp [dispatchLookup_snd]

theorem handle_nondup (adminUser : Option String) (reg : Registry) (st : ExecState)
    (userName : Option String) (command : String) (args : List String) (t : ℚ)
    (h : ¬ (st.lastEventDetails = some (userName, lstripBang command, args) ∧
      t - st.lastEventTime < 1/2)) :
    handleCommandEvent adminUser reg st userName command args t =
      rateAndDispatch adminUser reg
        { st with lastEventTime := t,
                  lastEventDetails := some (userName, lstripBang command, args) }
        userName (lstripBang command) t := by
  unfold handleCommandEvent
  rw [if_neg h]

/-- C2: an event matching the stored last (user, command, args) triple that
arrives less than 0.5 s after it is discarded with the state untouched; any
event arriving at least 0.5 s after the stored time passes the duplicate
check, whatever its triple. -/
theorem executor_duplicate_window :
    (∀ (adminUser : Option String) (reg : Registry) (st : ExecState)
        (userName : Option String) (command : String) (args : List String) (t : ℚ),
      st.lastEventDetails = some (userName, lstripBang command, args) →
      t - st.lastEventTime < 1/2 →
      handleCommandEvent adminUser reg st userName command args t = (.duplicate, st)) ∧
    (∀ (adminUser : Option String) (reg : Registry) (st : ExecState)
        (userName : Option String) (command : String) (args : List String) (t : ℚ),
      1/2 ≤ t - st.lastEventTime →
      (handleCommandEvent adminUser reg st userName command args t).1 ≠ .duplicate) := by
  constructor
  · intro adminUser reg st userName command args t h1 h2
    unfold handleCommandEvent
    rw [if_pos ⟨h1, h2⟩]
  · intro adminUser reg st userName command args t h
    have hc : ¬ (st.lastEventDetails = some (userName, lstripBang command, args) ∧
        t - st.lastEventTime < 1/2) := by
      rintro ⟨-, hlt⟩
      exact absurd hlt (not_lt.mpr h)
    rw [handle_nondup adminUser reg st userName command args t hc]
    apply rateAndDispatch_fst_ne_dup

/-- Witness for C2 at concrete events. -/
theorem executor_duplicate_window_check :
    handleCommandEvent (some "admin") [] ⟨100, some (some "bob", "play", ["x"]), []⟩
        (some "bob") "!play" ["x"] (1003/10) =
      (.duplicate, ⟨100, some (some "bob", "play", ["x"]), []⟩) ∧
    (handleCommandEvent (some "admin") [] ⟨100, some (some "bob", "play", ["x"]), []⟩
        (some "bob") "!play" ["x"] 200).1 ≠ .duplicate :=
  ⟨executor_duplicate_window.1 (some "admin") [] ⟨100, some (some "bob", "play", ["x"]), []⟩
      (some "bob") "!play" ["x"] (1003/10) (by rfl) (by norm_num),
    executor_duplicate_window.2 (some "admin") [] ⟨100, some (some "bob", "play", ["x"]), []⟩
      (some "bob") "!play" ["x"] 200 (by norm_num)⟩

theorem rateAndDispatch_admin (adminUser : Option String) (reg : Registry)
    (st1 : ExecState) (userName : Option String) (c : String) (t : ℚ)
    (hadmin : isAdminUser adminUser userName = true) :
    rateAndDispatch adminUser reg st1 userName c t = dispatchLookup reg c true st1 := by
  unfold rateAndDispatch
  rw [if_pos hadmin]

theorem rateAndDispatch_fresh (adminUser : Option String) (reg : Registry)
    (st1 : ExecState) (u : String) (c : String) (t : ℚ)
    (hadmin : isAdminUser adminUser (some u) = false)
    (hu : u ≠ "")
    (hfresh : dictGet st1.userLast u = none) :
    rateAndDispatch adminUser reg st1 (some u) c t =
      dispatchLookup reg c false { st1 with userLast := dictInsert st1.userLast u t } := by
  simp [rateAndDispatch, hadmin, hu, hfresh]

theorem rateAndDispatch_limited (adminUser : Option String) (reg : Registry)
    (st1 : ExecState) (u : String) (c : String) (t : ℚ) (lastT : ℚ)
    (hadmin : isAdminUser adminUser (some u) = false)
    (hu : u ≠ "")
    (hlook : dictGet st1.userLast u = some lastT)
    (h0 : lastT ≠ 0) (hlt : t - lastT < 30) :
    rateAndDispatch adminUser reg st1 (some u) c t = (.rateLimited, st1) := by
  simp [rateAndDispatch, hadmin, hu, hlook, h0, hlt]

/-- C3: a non-admin user with no recorded acceptance has their first event
pass the rate limiter and their second event inside the 30 s cool-down
discarded by it; a user whose trimmed name equals the trimmed configured
admin name is never rate-limited. -/
theorem executor_rate_limit :
    (∀ (adminName : String) (reg : Registry) (st : ExecState) (u : String)
        (c1 : String) (args1 : List String) (t1 : ℚ)
        (c2 : String) (args2 : List String) (t2 : ℚ),
      u ≠ "" →
      trimString u ≠ trimString adminName →
      dictGet st.userLast u = none →
      t1 ≠ 0 →
      t2 - t1 < 30 →
      ¬ (st.lastEventDetails = some (some u, lstripBang c1, args1) ∧
        t1 - st.lastEventTime < 1/2) →
      ¬ (((some u : Option String), lstripBang c2, args2) =
          ((some u : Option String), lstripBang c1, args1) ∧ t2 - t1 < 1/2) →
      (handleCommandEvent (some adminName) reg st (some u) c1 args1 t1).1 ≠ .duplicate ∧
      (handleCommandEvent (some adminName) reg st (some u) c1 args1 t1).1 ≠ .rateLimited ∧
      (handleCommandEvent (some adminName) reg
          (handleCommandEvent (some adminName) reg st (some u) c1 args1 t1).2
          (some u) c2 args2 t2).1 = .rateLimited) ∧
    (∀ (adminName : String) (reg : Registry) (st : ExecState) (u : String)
        (c : String) (args : List String) (t : ℚ),
      adminName ≠ "" → u ≠ "" → trimString u = trimString adminName →
      (handleCommandEvent (some adminName) reg st (some u) c args t).1 ≠ .rateLimited) := by
  constructor
  · intro adminName reg st u c1 args1 t1 c2 args2 t2 hu htrim hfresh h0 hwin hdup1 hne2
    have hadmin : isAdminUser (some adminName) (some u) = false := by
      have hbeq : (trimString u == trimString adminName) = false :=
        beq_eq_false_iff_ne.mpr htrim
      simp [isAdminUser, hbeq]
    have h1 : handleCommandEvent (some adminName) reg st (some u) c1 args1 t1 =
        dispatchLookup reg (lstripBang c1) false
          { st with lastEventTime := t1,
                    lastEventDetails := some (some u, lstripBang c1, args1),
                    userLast := dictInsert st.userLast u t1 } := by
      rw [handle_nondup _ _ _ _ _ _ _ hdup1,
        rateAndDispatch_fresh (some adminName) reg
          { st with lastEventTime := t1,
                    lastEventDetails := some (some u, lstripBang c1, args1) }
          u (lstripBang c1) t1 hadmin hu hfresh]
    refine ⟨?_, ?_, ?_⟩
    · rw [h1]; exact (dispatchLookup_fst ..).1
    · rw [h1]; exact (dispatchLookup_fst ..).2
    · have hst2 : (handleCommandEvent (some adminName) reg st (some u) c1 args1 t1).2 =
          { st with lastEventTime := t1,
                    lastEventDetails := some (some u, lstripBang c1, args1),
                    userLast := dictInsert st.userLast u t1 } := by
        rw [h1, dispatchLookup_snd]
      rw [hst2]
      have hdup2 : ¬ ((some (some u, lstripBang c1, args1) :
            Option (Option String × String × List String)) =
            some (some u, lstripBang c2, args2) ∧ t2 - t1 < 1/2) := by
        rintro ⟨he, hlt⟩
        exact hne2 ⟨(Option.some_injective _ he).symm, hlt⟩
      rw [handle_nondup _ _ _ _ _ _ _ hdup2]
      rw [rateAndDispatch_limited (some adminName) reg
        { st with lastEventTime := t2,
                  lastEventDetails := some (some u, lstripBang c2, args2),
                  userLast := dictInsert st.userLast u t1 }
        u (lstripBang c2) t2 t1 hadmin hu
        (show dictGet (dictInsert st.userLast u t1) u = some t1 by
          rw [dictGet_insert]; simp) h0 hwin]
  · intro adminName reg st u c args t ha hu htrim
    have hadmin : isAdminUser (some adminName) (some u) = true := by
      simp [isAdminUser, htrim, ha, hu]
    unfold handleCommandEvent
    split
    · simp
    · rw [rateAndDispatch_admin _ _ _ _ _ _ hadmin]
      exact (dispatchLookup_fst ..).2

/-- Witness for C3 at concrete events. -/
theorem executor_rate_limit_check :
    ((handleCommandEvent (some "admin") [] ⟨0, none, []⟩ (some "bob") "!play" [] 100).1 ≠
        .duplicate ∧
      (handleCommandEvent (some "admin") [] ⟨0, none, []⟩ (some "bob") "!play" [] 100).1 ≠
        .rateLimited ∧
      (handleCommandEvent (some "admin") []
          (handleCommandEvent (some "admin") [] ⟨0, none, []⟩ (some "bob") "!play" [] 100).2
          (some "bob") "!play" ["x"] 110).1 = .rateLimited) ∧
    (handleCommandEvent (some "admin") [] ⟨0, none, []⟩ (some " admin ") "!x" [] 5).1 ≠
      .rateLimited :=
  ⟨executor_rate_limit.1 "admin" [] ⟨0, none, []⟩ "bob" "!play" [] 100 "!play" ["x"] 110
      (by decide) (by decide) rfl (by norm_num) (by norm_num)
      (by rintro ⟨h1, -⟩; cases h1)
      (by rintro ⟨h1, -⟩; exact absurd h1 (by decide)),
    executor_rate_limit.2 "admin" [] ⟨0, none, []⟩ " admin " "!x" [] 5
      (by decide) (by decide) (by decide)⟩

/-- C10: the dispatcher strips every leading `!` from the command token, so
`!play`, `!!play` and `!!!play` are handled identically under the key
`play`. -/
theorem command_bang_stripped :
    (∀ (adminUser : Option String) (reg : Registry) (st : ExecState)
        (userName : Option String) (command : String) (args : List String) (t : ℚ),
      handleCommandEvent adminUser reg st userName command args t =
        handleCommandEvent adminUser reg st userName (lstripBang command) args t) ∧
    lstripBang "!play" = "play" ∧ lstripBang "!!play" = "play" ∧
    lstripBang "!!!play" = "play" := by
  refine ⟨?_, by decide, by decide, by decide⟩
  intro adminUser reg st userName command args t
  unfold handleCommandEvent
  rw [lstripBang_idem]

/-- The C8 sentence as stated: an event discarded by rate limiting or whose
command is not found never updates the stored duplicate-suppression tuple
or its timestamp. -/
def dedupFrameProp : Prop :=
  ∀ (adminUser : Option String) (reg : Registry) (st : ExecState)
    (userName : Option String) (command : String) (args : List String) (t : ℚ),
    ((handleCommandEvent adminUser reg st userName command args t).1 = .rateLimited ∨
      (handleCommandEvent adminUser reg st userName command args t).1 = .notFound) →
    (handleCommandEvent adminUser reg st userName command args t).2.lastEventDetails =
        st.lastEventDetails ∧
    (handleCommandEvent adminUser reg st userName command args t).2.lastEventTime =
        st.lastEventTime

/-- C8 counterexample: a rate-limited event still overwrites
`_last_event_details` (lines 62-63 of `executor.py` run before the
rate-limit check). -/
theorem dedup_updated_despite_discard : ¬ dedupFrameProp := by
  intro h
  have hadmin : isAdminUser (some "admin") (some "bob") = false := by decide
  have hcomp : handleCommandEvent (some "admin") [] ⟨0, none, [("bob", 10)]⟩
      (some "bob") "!play" [] 20 =
      (.rateLimited, ⟨20, some (some "bob", lstripBang "!play", []), [("bob", 10)]⟩) := by
    rw [handle_nondup _ _ _ _ _ _ _ (by rintro ⟨h1, -⟩; cases h1)]
    rw [rateAndDispatch_limited (some "admin") []
      ⟨20, some (some "bob", lstripBang "!play", []), [("bob", 10)]⟩
      "bob" (lstripBang "!play") 20 10 hadmin (by decide) (by decide)
      (by norm_num) (by norm_num)]
  have hfr := h (some "admin") [] ⟨0, none, [("bob", 10)]⟩ (some "bob") "!play" [] 20
    (Or.inl (by rw [hcomp]))
  rw [hcomp] at hfr
  exact Option.noConfusion hfr.1

/-- C8 amended: the stored duplicate-suppression tuple and timestamp track
the most recent event that passed the duplicate check — every non-duplicate
event overwrites them, including events later discarded by rate limiting or
not found, while a duplicate-discarded event leaves the state untouched. -/
theorem dedup_tracks_nonduplicate :
    ∀ (adminUser : Option String) (reg : Registry) (st : ExecState)
      (userName : Option String) (command : String) (args : List String) (t : ℚ),
      (¬ (st.lastEventDetails = some (userName, lstripBang command, args) ∧
          t - st.lastEventTime < 1/2) →
        (handleCommandEvent adminUser reg st userName command args t).2.lastEventDetails =
          some (userName, lstripBang command, args) ∧
        (handleCommandEvent adminUser reg st userName command args t).2.lastEventTime = t) ∧
      ((st.lastEventDetails = some (userName, lstripBang command, args) ∧
          t - st.lastEventTime < 1/2) →
        (handleCommandEvent adminUser reg st userName command args t).2 = st) := by
  intro adminUser reg st userName command args t
  constructor
  · intro h
    rw [handle_nondup _ _ _ _ _ _ _ h]
    have hf := rateAndDispatch_snd_frame adminUser reg
      { st with lastEventTime := t,
                lastEventDetails := some (userName, lstripBang command, args) }
      userName (lstripBang command) t
    exact ⟨hf.1, hf.2⟩
  · intro h
    unfold handleCommandEvent
    rw [if_pos h]

/-- Witness for the amended C8 at a concrete event. -/
theorem dedup_tracks_nonduplicate_check :
    ((handleCommandEvent (some "admin") [] ⟨0, none, []⟩ (some "bob") "!play" [] 100).2.lastEventDetails =
        some (some "bob", lstripBang "!play", []) ∧
      (handleCommandEvent (some "admin") [] ⟨0, none, []⟩ (some "bob") "!play" [] 100).2.lastEventTime =
        100) :=
  (dedup_tracks_nonduplicate (some "admin") [] ⟨0, none, []⟩ (some "bob") "!play" [] 100).1
    (by rintro ⟨h1, -⟩; cases h1)

/-! ## LineParser (`src/log_reader.py`, `LogReader._process_line`)

The regular expressions are embedded with Python `re` semantics: anchored
match, lazy groups tried shortest-first, alternations and optional groups
tried left-to-right and present-first, `.` matching anything but a newline.
-/

/-- Python `str.split()` with no arguments, accumulator form: split on
whitespace runs, dropping empty pieces. -/
def splitWsAux : List Char → List Char → List (List Char)
  | [], acc => if acc = [] then [] else [acc.reverse]
  | c :: rest, acc =>
    if c.isWhitespace then
      if acc = [] then splitWsAux rest [] else acc.reverse :: splitWsAux rest []
    else splitWsAux rest (c :: acc)

def splitWs (l : List Char) : List (List Char) := splitWsAux l []

/-- Python `str.split(maxsplit=1)`: the first whitespace-delimited token and,
when present, the remainder after the separating whitespace run (kept
verbatim).  `none` for an empty or all-whitespace string. -/
def splitFirstWs (l : List Char) : Option (List Char × Option (List Char)) :=
  match l.dropWhile Char.isWhitespace with
  | [] => none
  | l1 =>
    let tok := l1.takeWhile (fun x => !x.isWhitespace)
    let rest := (l1.dropWhile (fun x => !x.isWhitespace)).dropWhile Char.isWhitespace
    some (tok, if rest = [] then none else some rest)

/-- The `user` field of a parsed chat line, after tag stripping. -/
structure UserInfo where
  name : String
  steamid : Option String
  tags : Option String
  team : Option String
deriving DecidableEq

/-- The one event `_process_line` publishes for a line. -/
inductive ParsedEvent where
  | commandDetected (user : UserInfo) (command : String) (args : List String)
  | chatReceived (user : UserInfo) (message : String)
  | playerKill (killer victim weapon : String)
  | undefinedMessage (message : String)
deriving DecidableEq

/-- `CHAT_REGEX_SIMPLE`, `^(?P<user>[^:]+?) : (?P<message>.+)$`: the user
group cannot hold a colon, so the separator colon is the line's first; the
characters before it must be the user followed by one space, and a space and
a nonempty newline-free message must follow it. -/
def matchSimple (l : List Char) : Option (List Char × List Char) :=
  match l.dropWhile (fun c => c ≠ ':') with
  | ':' :: ' ' :: msg =>
    let before := l.takeWhile (fun c => c ≠ ':')
    if msg ≠ [] ∧ msg.all (fun c => c ≠ '\n') ∧
        2 ≤ before.length ∧ before.getLast? = some ' ' then
      some (before.dropLast, msg)
    else none
  | _ => none

/-- The candidate matches of `(?:\*?(?:DEAD|TEAM|SPEC)\*? )?` in the order a
backtracking engine tries them: both `\*?` present-first, the alternation
left-to-right, the whole optional group present-first. -/
def prefixCandidates : List (List Char) :=
  ["*DEAD* ", "*DEAD ", "*TEAM* ", "*TEAM ", "*SPEC* ", "*SPEC ",
    "DEAD* ", "DEAD ", "TEAM* ", "TEAM ", "SPEC* ", "SPEC ", ""].map String.data

/-- `\d+` followed by the rest (the run is maximal; a shorter run would leave
a digit where the pattern next needs a non-digit). -/
def digitsSplit (l : List Char) : Option (List Char × List Char) :=
  match l.takeWhile Char.isDigit with
  | [] => none
  | ds => some (ds, l.dropWhile Char.isDigit)

/-- ` : ` followed by the nonempty newline-free message reaching the end. -/
def parseSep (l : List Char) : Option (List Char) :=
  match l with
  | ' ' :: ':' :: ' ' :: msg =>
    if msg ≠ [] ∧ msg.all (fun c => c ≠ '\n') then some msg else none
  | _ => none

def teamNames : List (List Char) := ["Red", "Blue", "Spectator", "Console"].map String.data

/-- `<(?P<team>Red|Blue|Spectator|Console)>` tried in alternation order. -/
def tryTeams : List (List Char) → List Char → Option (List Char × List Char)
  | [], _ => none
  | t :: ts, l =>
    if ('<' :: (t ++ ['>'])).isPrefixOf l then
      match parseSep (l.drop (t.length + 2)) with
      | some msg => some (t, msg)
      | none => tryTeams ts l
    else tryTeams ts l

/-- The optional team group (tried present-first) then ` : message`. -/
def parseTeamSep (l : List Char) : Option (Option (List Char) × List Char) :=
  match tryTeams teamNames l with
  | some (t, msg) => some (some t, msg)
  | none =>
    match parseSep l with
    | some msg => some (none, msg)
    | none => none

/-- After the `<` closing the user group: `U:\d+:\d+>`, the optional team and
the separator.  Returns (steamid, team, message). -/
def parseAfterLt (l : List Char) : Option (List Char × Option (List Char) × List Char) :=
  match l with
  | 'U' :: ':' :: r1 =>
    match digitsSplit r1 with
    | some (d1, ':' :: r3) =>
      match digitsSplit r3 with
      | some (d2, '>' :: r5) =>
        match parseTeamSep r5 with
        | some (team, msg) => some ('U' :: ':' :: (d1 ++ ':' :: d2), team, msg)
        | none => none
      | _ => none
    | _ => none
  | _ => none

/-- The lazy `(?P<user>.+?)<`: close the nonempty newline-free user group at
the earliest `<` whose tail parses, else treat that `<` as a user character
(backtracking). -/
def scanUser : List Char → List Char → Option (List Char × List Char × Option (List Char) × List Char)
  | acc, '<' :: rest =>
    match (if acc ≠ [] then parseAfterLt rest else none) with
    | some (sid, team, msg) => some (acc.reverse, sid, team, msg)
    | none => scanUser ('<' :: acc) rest
  | acc, c :: rest => if c = '\n' then none else scanUser (c :: acc) rest
  | _, [] => none

/-- `CHAT_REGEX_FULL`: try each prefix interpretation in backtracking order,
then the lazy user scan on the remainder.  Returns (user, steamid, team,
message); the prefix group is non-capturing and discarded. -/
def tryPrefixes : List (List Char) → List Char →
    Option (List Char × List Char × Option (List Char) × List Char)
  | [], _ => none
  | p :: ps, l =>
    if p.isPrefixOf l then
      match scanUser [] (l.drop p.length) with
      | some r => some r
      | none => tryPrefixes ps l
    else tryPrefixes ps l

def matchFull (l : List Char) :
    Option (List Char × List Char × Option (List Char) × List Char) :=
  tryPrefixes prefixCandidates l

/-- The lazy `(?P<weapon>.+?)\.(?: \(crit\))?$`: close the nonempty weapon at
the earliest `.` followed by the end or exactly ` (crit)`. -/
def scanWeapon : List Char → List Char → Option (List Char)
  | acc, '.' :: rest =>
    if acc ≠ [] ∧ (rest = [] ∨ rest = " (crit)".data) then some acc.reverse
    else scanWeapon ('.' :: acc) rest
  | acc, c :: rest => if c = '\n' then none else scanWeapon (c :: acc) rest
  | _, [] => none

/-- The lazy `(?P<victim>.+?) with `: split at the earliest ` with ` whose
weapon tail parses. -/
def scanVictim : List Char → List Char → Option (List Char × List Char)
  | acc, ' ' :: 'w' :: 'i' :: 't' :: 'h' :: ' ' :: rest =>
    match (if acc ≠ [] then scanWeapon [] rest else none) with
    | some w => some (acc.reverse, w)
    | none => scanVictim (' ' :: acc) ('w' :: 'i' :: 't' :: 'h' :: ' ' :: rest)
  | acc, c :: rest => if c = '\n' then none else scanVictim (c :: acc) rest
  | _, [] => none

/-- `KILL_REGEX`, `^(?P<killer>.+?) killed (?P<victim>.+?) with
(?P<weapon>.+?)\.(?: \(crit\))?$`. -/
def scanKiller : List Char → List Char → Option (List Char × List Char × List Char)
  | acc, ' ' :: 'k' :: 'i' :: 'l' :: 'l' :: 'e' :: 'd' :: ' ' :: rest =>
    match (if acc ≠ [] then scanVictim [] rest else none) with
    | some (v, w) => some (acc.reverse, v, w)
    | none => scanKiller (' ' :: acc) ('k' :: 'i' :: 'l' :: 'l' :: 'e' :: 'd' :: ' ' :: rest)
  | acc, c :: rest => if c = '\n' then none else scanKiller (c :: acc) rest
  | _, [] => none

def matchKill (l : List Char) : Option (List Char × List Char × List Char) :=
  scanKiller [] l

/-- The status tags the stripping loop recognises, in source order. -/
def possibleTags : List (List Char) :=
  ["*DEAD*", "*TEAM*", "[TEAM]", "*SPEC*", "[SPEC]", "[DEAD]"].map String.data

/-- One pass of the stripping loop: the first listed tag the name starts
with, tried with a following space before without, is removed and the result
trimmed. -/
def findStrip : List Char → List (List Char) → Option (List Char × List Char)
  | _, [] => none
  | name, tag :: ts =>
    if (tag ++ [' ']).isPrefixOf name then
      some (tag, trimChars (name.drop (tag.length + 1)))
    else if tag.isPrefixOf name then
      some (tag, trimChars (name.drop tag.length))
    else findStrip name ts

theorem isPrefixOf_length_le {α : Type} [BEq α] :
    ∀ (l1 l2 : List α), l1.isPrefixOf l2 = true → l1.length ≤ l2.length := by
  intro l1
  induction l1 with
  | nil => intro l2 _; exact Nat.zero_le _
  | cons a t ih =>
    intro l2 h
    cases l2 with
    | nil => cases h
    | cons b t2 =>
      simp only [List.isPrefixOf, Bool.and_eq_true] at h
      exact Nat.succ_le_succ (ih t2 h.2)

theorem dropWhileLengthLe {α : Type} (p : α → Bool) (l : List α) :
    (l.dropWhile p).length ≤ l.length := by
  induction l with
  | nil => simp
  | cons a t ih =>
    by_cases h : p a = true
    · rw [List.dropWhile_cons, if_pos h]
      exact Nat.le_succ_of_le ih
    · rw [List.dropWhile_cons, if_neg h]

theorem trimChars_length_le (l : List Char) : (trimChars l).length ≤ l.length := by
  unfold trimChars
  rw [List.length_reverse]
  calc ((l.dropWhile Char.isWhitespace).reverse.dropWhile Char.isWhitespace).length
      ≤ (l.dropWhile Char.isWhitespace).reverse.length := dropWhileLengthLe _ _
    _ = (l.dropWhile Char.isWhitespace).length := List.length_reverse _
    _ ≤ l.length := dropWhileLengthLe _ _

theorem findStrip_lt :
    ∀ (tags : List (List Char)) (name tag name' : List Char),
      (∀ t ∈ tags, t ≠ []) → findStrip name tags = some (tag, name') →
      name'.length < name.length := by
  intro tags
  induction tags with
  | nil => intro name tag name' _ h; cases h
  | cons t ts ih =>
    intro name tag name' hne h
    unfold findStrip at h
    have ht : t ≠ [] := hne t (List.mem_cons_self t ts)
    have htlen : 1 ≤ t.length := List.length_pos.mpr ht
    by_cases h1 : (t ++ [' ']).isPrefixOf name = true
    · rw [if_pos h1] at h
      obtain ⟨-, h2⟩ := Prod.mk.injEq .. ▸ (Option.some_injective _ h)
      have hlen : t.length + 1 ≤ name.length := by
        have := isPrefixOf_length_le _ _ h1
        simpa using this
      calc name'.length = (trimChars (name.drop (t.length + 1))).length := by rw [h2]
        _ ≤ (name.drop (t.length + 1)).length := trimChars_length_le _
        _ = name.length - (t.length + 1) := List.length_drop _ _
        _ < name.length := Nat.sub_lt (lt_of_lt_of_le (Nat.succ_le_succ (Nat.zero_le _)) hlen)
            (Nat.succ_pos _)
    · rw [if_neg h1] at h
      by_cases h2 : t.isPrefixOf name = true
      · rw [if_pos h2] at h
        obtain ⟨-, h3⟩ := Prod.mk.injEq .. ▸ (Option.some_injective _ h)
        have hlen : t.length ≤ name.length := isPrefixOf_length_le _ _ h2
        calc name'.length = (trimChars (name.drop t.length)).length := by rw [h3]
          _ ≤ (name.drop t.length).length := trimChars_length_le _
          _ = name.length - t.length := List.length_drop _ _
          _ < name.length := Nat.sub_lt (lt_of_lt_of_le htlen hlen) htlen
      · rw [if_neg h2] at h
        exact ih name tag name' (fun x hx => hne x (List.mem_cons_of_mem t hx)) h

/-- The `while True` stripping loop of `_process_line` (lines 207-233),
written with a fuel argument so it computes by structural recursion; each
pass strictly shortens the name (`findStrip_lt`), so fuel `name.length + 1`
is provably never exhausted and the function equals the unbounded loop.
The loop's safety break (stop when a pass did not change the name, after
recording the tag) is modelled verbatim even though it is unreachable. -/
def stripLoopF : Nat → List Char → List (List Char) → List Char × List (List Char)
  | 0, name, acc => (name, acc.reverse)
  | fuel + 1, name, acc =>
    match findStrip name possibleTags with
    | none => (name, acc.reverse)
    | some (tag, name') =>
      if name' = name then (name', (tag :: acc).reverse)
      else stripLoopF fuel name' (tag :: acc)

/-- The stripping loop: final user name and the stripped tags in order. -/
def stripLoop (name : List Char) (acc : List (List Char)) :
    List Char × List (List Char) :=
  stripLoopF (name.length + 1) name acc

theorem possibleTags_ne_nil : ∀ t ∈ possibleTags, t ≠ [] := by decide

theorem stripLoopF_no_tag :
    ∀ (fuel : Nat) (name : List Char) (acc : List (List Char)),
      name.length < fuel →
      findStrip (stripLoopF fuel name acc).1 possibleTags = none := by
  intro fuel
  induction fuel with
  | zero => intro name acc h; exact absurd h (Nat.not_lt_zero _)
  | succ n ih =>
    intro name acc h
    cases hf : findStrip name possibleTags with
    | none => simpa [stripLoopF, hf] using hf
    | some p =>
      obtain ⟨tag, name'⟩ := p
      have hlt : name'.length < name.length := findStrip_lt _ _ _ _ possibleTags_ne_nil hf
      by_cases he : name' = name
      · rw [he] at hlt; exact absurd hlt (lt_irrefl _)
      · simp only [stripLoopF, hf, if_neg he]
        exact ih name' (tag :: acc) (lt_of_lt_of_le hlt (Nat.lt_succ_iff.mp h))

theorem stripLoop_no_tag (name : List Char) (acc : List (List Char)) :
    findStrip (stripLoop name acc).1 possibleTags = none :=
  stripLoopF_no_tag _ _ _ (Nat.lt_succ_self _)

/-- The tag-stripping function on a user-name string, as a whole: the final
name the loop leaves. -/
def stripTagsName (s : String) : String := ⟨(stripLoop s.data []).1⟩

/-- C7: tag stripping is idempotent — stripping an already-stripped name
returns it unchanged. -/
theorem strip_tags_idempotent (s : String) :
    stripTagsName (stripTagsName s) = stripTagsName s := by
  have h : findStrip (stripLoop s.data []).1 possibleTags = none := stripLoop_no_tag _ _
  show (⟨(stripLoop (stripLoop s.data []).1 []).1⟩ : String) = ⟨(stripLoop s.data []).1⟩
  rw [stripLoop, stripLoopF, h]

/-- The chat-line tail of `_process_line`: tag stripping, the malformed-name
guard, and the command/chat decision.  The `splitFirstWs` fallback `none`
is unreachable there: the message starts with `!`, so it is nonempty and not
whitespace. -/
def handleChat (rawUser msg : List Char) (steamid : Option (List Char))
    (team : Option (List Char)) : Option ParsedEvent :=
  match stripLoop rawUser [] with
  | (userName, strippedTags) =>
    if userName = [] then none
    else
      let finalTags : Option String :=
        if strippedTags = [] then none
        else some ⟨(strippedTags.intersperse [' ']).join⟩
      let userInfo : UserInfo :=
        ⟨⟨userName⟩, steamid.map (fun x => (⟨x⟩ : String)), finalTags,
          team.map (fun x => (⟨x⟩ : String))⟩
      if msg.head? = some '!' ∧ 1 < msg.length then
        match splitFirstWs msg with
        | some (tok, restOpt) =>
          let argsStr := match restOpt with
            | some r => trimChars r
            | none => []
          some (.commandDetected userInfo ⟨tok⟩
            ((splitWs argsStr).map (fun x => (⟨x⟩ : String))))
        | none => none
      else some (.chatReceived userInfo ⟨msg⟩)

/-- `LogReader._process_line`: full chat format first, then the simple
format, then the kill pattern, else the undefined-message event.  `none`
models the malformed-chat early return that publishes nothing. -/
def processLine (line : String) : Option ParsedEvent :=
  match matchFull line.data with
  | some (u, sid, team, msg) =>
    handleChat (trimChars u) (trimChars msg) (some sid) team
  | none =>
    match matchSimple line.data with
    | some (u, msg) => handleChat (trimChars u) (trimChars msg) none none
    | none =>
      match matchKill line.data with
      | some (k, v, w) => some (.playerKill ⟨k⟩ ⟨v⟩ ⟨w⟩)
      | none => some (.undefinedMessage line)

/-- C4: the line `*DEAD* Alice : !play some song` parses to exactly one
event, a detected command with user name `Alice`, tags `*DEAD*`, command
token `!play` and arguments `["some", "song"]`. -/
theorem parse_dead_alice_play :
    processLine "*DEAD* Alice : !play some song" =
      some (.commandDetected ⟨"Alice", none, some "*DEAD*", none⟩ "!play"
        ["some", "song"]) := by
  decide

/-! ## LogTailer (`src/log_reader.py`, `LogFileEventHandler._read_new_lines`)

The file is modelled as its character content; a poll observes the current
content, compares its length with the tracked position, reads exactly the
new byte range when the file grew, and delivers the nonempty lines of the
chunk in order. -/

/-- Python `str.splitlines()` restricted to the `\n`, `\r` and `\r\n`
terminators, accumulator form. -/
def splitLinesAux : List Char → List Char → List (List Char)
  | [], acc => if acc = [] then [] else [acc.reverse]
  | '\r' :: '\n' :: rest, acc => acc.reverse :: splitLinesAux rest []
  | '\r' :: rest, acc => acc.reverse :: splitLinesAux rest []
  | '\n' :: rest, acc => acc.reverse :: splitLinesAux rest []
  | c :: rest, acc => splitLinesAux rest (c :: acc)

def splitLines (l : List Char) : List (List Char) := splitLinesAux l []

/-- The lines a chunk delivers to the callback: `splitlines`, skipping empty
lines (`if line:`). -/
def linesOf (chunk : List Char) : List (List Char) :=
  (splitLines chunk).filter (fun x => x ≠ [])

/-- What one `_read_new_lines` call does given the current file content and
the tracked position: shrink resets to the new end with nothing read, growth
reads exactly bytes `[lastSize, length)`, equality reads nothing. -/
structure PollResult where
  chunk : List Char
  lines : List (List Char)
  range : Option (Nat × Nat)
  newLast : Nat
deriving DecidableEq

def readNewLines (content : List Char) (lastSize : Nat) : PollResult :=
  if content.length < lastSize then ⟨[], [], none, content.length⟩
  else if lastSize < content.length then
    ⟨content.drop lastSize, linesOf (content.drop lastSize),
      some (lastSize, content.length), content.length⟩
  else ⟨[], [], none, lastSize⟩

/-- A sequence of polls over successive file contents, threading the tracked
position, collecting the chunks, delivered lines and byte ranges read. -/
structure TailTrace where
  chunks : List (List Char)
  lines : List (List Char)
  ranges : List (Nat × Nat)
  lastSize : Nat
deriving DecidableEq

def pollSeq : List (List Char) → Nat → TailTrace
  | [], l => ⟨[], [], [], l⟩
  | c :: cs, l =>
    let r := readNewLines c l
    let t := pollSeq cs r.newLast
    ⟨r.chunk :: t.chunks, r.lines ++ t.lines, r.range.toList ++ t.ranges, t.lastSize⟩

/-- Append-only growth from one observed content to the next. -/
def growsTo (a b : List Char) : Prop := ∃ t, a ++ t = b

def unionIco : List (Nat × Nat) → Set Nat
  | [] => ∅
  | r :: rs => Set.Ico r.1 r.2 ∪ unionIco rs

theorem growsTo_length_le {a b : List Char} (h : growsTo a b) : a.length ≤ b.length := by
  obtain ⟨t, rfl⟩ := h
  simp

theorem growsTo_trans {a b c : List Char} (h1 : growsTo a b) (h2 : growsTo b c) :
    growsTo a c := by
  obtain ⟨t1, rfl⟩ := h1
  obtain ⟨t2, rfl⟩ := h2
  exact ⟨t1 ++ t2, (List.append_assoc ..).symm⟩

theorem chain_growsTo_getLastD :
    ∀ (cs : List (List Char)) (c : List Char),
      List.Chain growsTo c cs → growsTo c (cs.getLastD c) := by
  intro cs
  induction cs with
  | nil => intro c _; exact ⟨[], List.append_nil _⟩
  | cons c1 cs ih =>
    intro c h
    obtain ⟨h01, h1⟩ := List.chain_cons.mp h
    rw [List.getLastD_cons]
    exact growsTo_trans h01 (ih c1 h1)

theorem growsTo_drop_append {c f : List Char} (h : growsTo c f) {l : Nat}
    (hl : l ≤ c.length) : c.drop l ++ f.drop c.length = f.drop l := by
  obtain ⟨t, rfl⟩ := h
  rw [List.drop_left, List.drop_append_eq_append_drop, Nat.sub_eq_zero_of_le hl,
    List.drop_zero]

theorem readNewLines_grow (c : List Char) (l : Nat) (h : l ≤ c.length) :
    readNewLines c l =
      ⟨c.drop l, linesOf (c.drop l),
        if l < c.length then some (l, c.length) else none, c.length⟩ := by
  unfold readNewLines
  rw [if_neg (not_lt.mpr h)]
  by_cases h2 : l < c.length
  · rw [if_pos h2, if_pos h2]
  · rw [if_neg h2, if_neg h2]
    have he : l = c.length := le_antisymm h (not_lt.mp h2)
    subst he
    rw [List.drop_length]
    simp [linesOf, splitLines, splitLinesAux]

/-- C5: across polls over an append-only file, the concatenation of the read
chunks is exactly the content appended after the start position (each
appended byte read once, in order), the byte ranges read are consecutive
nonempty intervals starting at the start position whose union is exactly the
appended range, the tracked position ends at the final size, and the lines
delivered to the callback are the nonempty split lines of the chunks in
chronological (file) order. -/
theorem tailer_reads_appended_once :
    ∀ (cs : List (List Char)) (c : List Char),
      List.Chain growsTo c cs →
      (pollSeq cs c.length).chunks.join = (cs.getLastD c).drop c.length ∧
      (pollSeq cs c.length).lastSize = (cs.getLastD c).length ∧
      (pollSeq cs c.length).lines = ((pollSeq cs c.length).chunks.map linesOf).join ∧
      List.Chain' (fun a b => a.2 = b.1) (pollSeq cs c.length).ranges ∧
      (∀ r ∈ (pollSeq cs c.length).ranges, r.1 < r.2) ∧
      (∀ p q rs, (pollSeq cs c.length).ranges = (p, q) :: rs → p = c.length) ∧
      unionIco (pollSeq cs c.length).ranges =
        Set.Ico c.length (cs.getLastD c).length := by
  intro cs
  induction cs with
  | nil =>
    intro c _
    refine ⟨by simp [pollSeq, List.drop_length], rfl, rfl, List.chain'_nil, ?_, ?_, ?_⟩
    · intro r hr; cases hr
    · intro p q rs h; cases h
    · simp [pollSeq, unionIco]
  | cons c1 cs ih =>
    intro c hchain
    obtain ⟨h01, hchain1⟩ := List.chain_cons.mp hchain
    have hle : c.length ≤ c1.length := growsTo_length_le h01
    obtain ⟨ih1, ih2, ih3, ih4, ih5, ih6, ih7⟩ := ih c1 hchain1
    have hfin : growsTo c1 (cs.getLastD c1) := chain_growsTo_getLastD cs c1 hchain1
    have hlenfin : c1.length ≤ (cs.getLastD c1).length := growsTo_length_le hfin
    have hred : pollSeq (c1 :: cs) c.length =
        ⟨c1.drop c.length :: (pollSeq cs c1.length).chunks,
          linesOf (c1.drop c.length) ++ (pollSeq cs c1.length).lines,
          (if c.length < c1.length then some (c.length, c1.length) else none).toList ++
            (pollSeq cs c1.length).ranges,
          (pollSeq cs c1.length).lastSize⟩ := by
      simp only [pollSeq]
      rw [readNewLines_grow c1 c.length hle]
    rw [hred, List.getLastD_cons]
    refine ⟨?_, ih2, ?_, ?_, ?_, ?_, ?_⟩
    · show c1.drop c.length ++ (pollSeq cs c1.length).chunks.join = _
      rw [ih1, growsTo_drop_append hfin hle]
    · show linesOf (c1.drop c.length) ++ (pollSeq cs c1.length).lines = _
      rw [ih3, List.map_cons]
      rfl
    · by_cases hlt : c.length < c1.length
      · rw [if_pos hlt]
        show List.Chain' _ ((c.length, c1.length) :: (pollSeq cs c1.length).ranges)
        rw [List.chain'_cons']
        refine ⟨?_, ih4⟩
        intro b hb
        cases hre : (pollSeq cs c1.length).ranges with
        | nil => rw [hre] at hb; simp at hb
        | cons hd tl =>
          obtain ⟨p1, q1⟩ := hd
          rw [hre] at hb
          simp only [List.head?_cons, Option.mem_def, Option.some_inj] at hb
          subst hb
          exact (ih6 p1 q1 tl (by rw [hre])).symm
      · rw [if_neg hlt]
        exact ih4
    · intro r hr
      by_cases hlt : c.length < c1.length
      · rw [if_pos hlt] at hr
        rcases List.mem_cons.mp hr with h | h
        · subst h; exact hlt
        · exact ih5 r h
      · rw [if_neg hlt] at hr
        exact ih5 r hr
    · intro p q rs h
      by_cases hlt : c.length < c1.length
      · rw [if_pos hlt] at h
        simp only [Option.toList_some, List.cons_append, List.cons.injEq] at h
        exact (Prod.mk.injEq .. ▸ h.1).1.symm
      · rw [if_neg hlt] at h
        have he : c.length = c1.length := le_antisymm hle (not_lt.mp hlt)
        rw [he]
        exact ih6 p q rs (by simpa using h)
    · by_cases hlt : c.length < c1.length
      · rw [if_pos hlt]
        show unionIco ((c.length, c1.length) :: (pollSeq cs c1.length).ranges) = _
        rw [unionIco, ih7]
        exact Set.Ico_union_Ico_eq_Ico (le_of_lt hlt) hlenfin
      · rw [if_neg hlt]
        have he : c.length = c1.length := le_antisymm hle (not_lt.mp hlt)
        rw [he]
        simpa using ih7

/-- Witness for C5 at a concrete poll sequence. -/
theorem tailer_reads_appended_once_check :
    (pollSeq [['a', 'b'], ['a', 'b', 'c', '\n', 'd'], ['a', 'b', 'c', '\n', 'd', '\n']]
        ['a', 'b'].length).chunks.join =
      ([['a', 'b'], ['a', 'b', 'c', '\n', 'd'],
          ['a', 'b', 'c', '\n', 'd', '\n']].getLastD ['a', 'b']).drop ['a', 'b'].length ∧
    (pollSeq [['a', 'b'], ['a', 'b', 'c', '\n', 'd'], ['a', 'b', 'c', '\n', 'd', '\n']]
        ['a', 'b'].length).lastSize =
      ([['a', 'b'], ['a', 'b', 'c', '\n', 'd'],
          ['a', 'b', 'c', '\n', 'd', '\n']].getLastD ['a', 'b']).length ∧
    (pollSeq [['a', 'b'], ['a', 'b', 'c', '\n', 'd'], ['a', 'b', 'c', '\n', 'd', '\n']]
        ['a', 'b'].length).lines =
      ((pollSeq [['a', 'b'], ['a', 'b', 'c', '\n', 'd'], ['a', 'b', 'c', '\n', 'd', '\n']]
          ['a', 'b'].length).chunks.map linesOf).join ∧
    List.Chain' (fun a b => a.2 = b.1)
      (pollSeq [['a', 'b'], ['a', 'b', 'c', '\n', 'd'], ['a', 'b', 'c', '\n', 'd', '\n']]
        ['a', 'b'].length).ranges ∧
    (∀ r ∈ (pollSeq [['a', 'b'], ['a', 'b', 'c', '\n', 'd'],
        ['a', 'b', 'c', '\n', 'd', '\n']] ['a', 'b'].length).ranges, r.1 < r.2) ∧
    (∀ p q rs,
      (pollSeq [['a', 'b'], ['a', 'b', 'c', '\n', 'd'], ['a', 'b', 'c', '\n', 'd', '\n']]
        ['a', 'b'].length).ranges = (p, q) :: rs → p = ['a', 'b'].length) ∧
    unionIco (pollSeq [['a', 'b'], ['a', 'b', 'c', '\n', 'd'],
        ['a', 'b', 'c', '\n', 'd', '\n']] ['a', 'b'].length).ranges =
      Set.Ico ['a', 'b'].length
        ([['a', 'b'], ['a', 'b', 'c', '\n', 'd'],
            ['a', 'b', 'c', '\n', 'd', '\n']].getLastD ['a', 'b']).length :=
  tailer_reads_appended_once
    [['a', 'b'], ['a', 'b', 'c', '\n', 'd'], ['a', 'b', 'c', '\n', 'd', '\n']]
    ['a', 'b']
    (List.Chain.cons ⟨[], List.append_nil _⟩
      (List.Chain.cons ⟨['c', '\n', 'd'], rfl⟩
        (List.Chain.cons ⟨['\n'], rfl⟩ List.Chain.nil)))

/-! ## PlaybackEngine (`src/audio_player.py`)

The playback worker loop is modelled at the granularity of its program
points that matter for cancellation: the top-of-loop `self._stop_event.clear()`
(line 80) and the dequeue with its immediately following stop-flag check
(lines 89-105, with actual playback abstracted to recording the item as
played).  External actions are `stop_playback` (sets the flag, line 284) and
`play_file` (appends to the queue, line 275). -/

inductive PStep where
  | cancel
  | enqueue (p : String)
  | workerTop
  | workerGet
deriving DecidableEq

structure PlayerState where
  stopFlag : Bool
  queue : List String
  played : List String
  skipped : List String
deriving DecidableEq

def pstep : PStep → PlayerState → PlayerState
  | .cancel, s => { s with stopFlag := true }
  | .enqueue p, s => { s with queue := s.queue ++ [p] }
  | .workerTop, s => { s with stopFlag := false }
  | .workerGet, s =>
    match s.queue with
    | [] => s
    | p :: rest =>
      if s.stopFlag then { s with queue := rest, skipped := s.skipped ++ [p] }
      else { s with queue := rest, played := s.played ++ [p] }

def prun (steps : List PStep) (s : PlayerState) : PlayerState :=
  steps.foldl (fun st a => pstep a st) s

/-- The C9 sentence as stated: a cancellation request issued at any point
before an item's playback begins (no other playback starting in between)
causes that item to be skipped rather than played. -/
def cancelHonoredProp : Prop :=
  ∀ (s : PlayerState) (mid : List PStep) (p : String) (rest : List String),
    (∀ a ∈ mid, a ≠ PStep.workerGet) →
    (prun mid (pstep PStep.cancel s)).queue = p :: rest →
    (pstep PStep.workerGet (prun mid (pstep PStep.cancel s))).played =
      (prun mid (pstep PStep.cancel s)).played

/-- C9 counterexample: the loop clears the stop flag at the top of every
iteration, including idle ones, so a cancel issued before an intervening
top-of-loop clear is erased and the next item plays anyway. -/
theorem cancel_request_erased_cex : ¬ cancelHonoredProp := by
  intro h
  have hc := h ⟨false, [], [], []⟩ [PStep.workerTop, PStep.enqueue "a"] "a" []
    (by decide) (by decide)
  exact absurd hc (by decide)

theorem pstep_stopFlag_workerGet (s : PlayerState) :
    (pstep PStep.workerGet s).stopFlag = s.stopFlag := by
  simp only [pstep]
  cases s.queue with
  | nil => rfl
  | cons p rest => by_cases h : s.stopFlag = true <;> simp [h]

theorem flagPersists (mid : List PStep) :
    ∀ (s : PlayerState), PStep.workerTop ∉ mid → s.stopFlag = true →
      (prun mid s).stopFlag = true := by
  induction mid with
  | nil => intro s _ h; exact h
  | cons a rest ih =>
    intro s hnt h
    have hnt' : PStep.workerTop ∉ rest := fun hm => hnt (List.mem_cons_of_mem _ hm)
    have ha : a ≠ PStep.workerTop := fun he => hnt (he ▸ List.mem_cons_self _ _)
    show (prun rest (pstep a s)).stopFlag = true
    apply ih (pstep a s) hnt'
    cases a with
    | cancel => rfl
    | enqueue p => exact h
    | workerTop => exact absurd rfl ha
    | workerGet => rw [pstep_stopFlag_workerGet]; exact h

theorem cancelSetsFlag (mid : List PStep) :
    ∀ (s : PlayerState), PStep.workerTop ∉ mid → PStep.cancel ∈ mid →
      (prun mid s).stopFlag = true := by
  induction mid with
  | nil => intro s _ hc; cases hc
  | cons a rest ih =>
    intro s hnt hc
    have hnt' : PStep.workerTop ∉ rest := fun hm => hnt (List.mem_cons_of_mem _ hm)
    show (prun rest (pstep a s)).stopFlag = true
    by_cases hcr : PStep.cancel ∈ rest
    · exact ih (pstep a s) hnt' hcr
    · have ha : a = PStep.cancel := by
        rcases List.mem_cons.mp hc with h | h
        · exact h.symm
        · exact absurd h hcr
      subst ha
      exact flagPersists rest (pstep PStep.cancel s) hnt' rfl

/-- C9 amended: the stop flag is cleared only by the top-of-loop step, and a
cancellation request issued after the current iteration's top-of-loop clear
and before the dequeue (no further top-of-loop step in between) makes the
dequeued item be skipped, not played. -/
theorem cancel_before_dequeue_skips :
    (∀ (a : PStep) (s : PlayerState),
      (pstep a s).stopFlag = false → a = PStep.workerTop ∨ s.stopFlag = false) ∧
    (∀ (s : PlayerState) (mid : List PStep) (p : String) (rest : List String),
      PStep.workerTop ∉ mid → PStep.cancel ∈ mid →
      (prun mid s).queue = p :: rest →
      (pstep PStep.workerGet (prun mid s)).played = (prun mid s).played ∧
      (pstep PStep.workerGet (prun mid s)).skipped = (prun mid s).skipped ++ [p]) := by
  constructor
  · intro a s h
    cases a with
    | workerTop => exact Or.inl rfl
    | cancel => cases h
    | enqueue p => exact Or.inr h
    | workerGet => rw [pstep_stopFlag_workerGet] at h; exact Or.inr h
  · intro s mid p rest hnt hc hq
    have hflag : (prun mid s).stopFlag = true := cancelSetsFlag mid s hnt hc
    have hstep : pstep PStep.workerGet (prun mid s) =
        { prun mid s with queue := rest, skipped := (prun mid s).skipped ++ [p] } := by
      simp only [pstep]
      rw [hq]
      simp [hflag]
    exact ⟨by rw [hstep], by rw [hstep]⟩

/-- Witness for the amended C9 at concrete schedules. -/
theorem cancel_before_dequeue_skips_check :
    (PStep.workerTop = PStep.workerTop ∨
      (⟨true, [], [], []⟩ : PlayerState).stopFlag = false) ∧
    ((pstep PStep.workerGet (prun [PStep.cancel] ⟨false, ["a"], [], []⟩)).played =
        (prun [PStep.cancel] ⟨false, ["a"], [], []⟩).played ∧
      (pstep PStep.workerGet (prun [PStep.cancel] ⟨false, ["a"], [], []⟩)).skipped =
        (prun [PStep.cancel] ⟨false, ["a"], [], []⟩).skipped ++ ["a"]) :=
  ⟨cancel_before_dequeue_skips.1 PStep.workerTop ⟨true, [], [], []⟩ (by decide),
    cancel_before_dequeue_skips.2 ⟨false, ["a"], [], []⟩ [PStep.cancel] "a" []
      (by decide) (by decide) (by decide)⟩

end Requestipy
